import Mathlib

/-!
Verification of `video_frames_pipeline.py`.

The file shallowly embeds the pure logic of the pipeline:
* `compute_sample_indices` — the frame sample planner (`_compute_sample_indices`),
  with Python's banker's rounding `round` modelled exactly on integer ratios
  (`pyRound`); the Python source computes `round(i * (total_frames - 1) /
  (num_samples - 1))` where the numerator is an exact machine integer, so the
  embedding works with the exact rational value of the quotient;
* `natural_key` / `sortNames` — the natural filename sort of the frame
  assembler (`_natural_key` and `sorted(..., key=_natural_key)`), with
  filenames modelled as their lists of Unicode code points;
* `listImages` / `encoderFps` — the input-image filter and the fps resolution
  of `frames_to_video`;
* `extract_frames` — the control flow of frame extraction, instrumented with a
  counter of opened and released video-capture handles.
-/

/-- Error kinds raised by the pipeline (each Python `raise` site is one of
these categories; the message strings are those of the source). -/
inductive Err where
  | invalidInput (msg : String)
  | openFailure (msg : String)
  | writeFailure (msg : String)
  | emptyResult (msg : String)
  deriving DecidableEq, Repr

/-- Python's `round` on the exact value `a / b` (`a b : ℕ`, `b > 0`):
round half to even, computed with integer arithmetic. -/
def pyRound (a b : ℕ) : ℕ :=
  if 2 * (a % b) < b then a / b
  else if b < 2 * (a % b) then a / b + 1
  else if (a / b) % 2 = 0 then a / b else a / b + 1

/-- The deduplication loop of `_compute_sample_indices`: `seen` is the set of
already-emitted values, elements are kept at their first occurrence. -/
def dedupSeen (seen : List ℕ) : List ℕ → List ℕ
  | [] => []
  | x :: xs =>
    if x ∈ seen then dedupSeen seen xs
    else x :: dedupSeen (x :: seen) xs

/-- `uniq` in the source: remove duplicates preserving first-occurrence order. -/
def dedupFirst (l : List ℕ) : List ℕ :=
  dedupSeen [] l

/-- `_compute_sample_indices(total_frames, num_samples)`. -/
def compute_sample_indices (total_frames num_samples : ℤ) :
    Except Err (List ℕ) :=
  if total_frames ≤ 0 then
    .error (.invalidInput "Video appears to have zero frames (or metadata missing).")
  else if num_samples ≤ 0 then
    .error (.invalidInput "num_samples must be >= 1")
  else
    -- num_samples = min(num_samples, total_frames)
    let ns := min num_samples total_frames
    if ns = 1 then .ok [total_frames.toNat / 2]
    else
      let T := total_frames.toNat
      let n := ns.toNat
      let indices := (List.range n).map fun i => pyRound (i * (T - 1)) (n - 1)
      .ok (dedupFirst indices)

example : compute_sample_indices 10 4 = .ok [0, 3, 6, 9] := by rfl
example : compute_sample_indices 5 10 = .ok [0, 1, 2, 3, 4] := by rfl
example : compute_sample_indices 7 1 = .ok [3] := by rfl
example : compute_sample_indices 2 5 = .ok [0, 1] := by rfl

/-- The specification's rounding rule, stated independently of the code:
round half to even (the behaviour of Python's `round`) on an exact rational. -/
def specRoundHalfEven (q : ℚ) : ℤ :=
  if Int.fract q = 1 / 2 then (if ⌊q⌋ % 2 = 0 then ⌊q⌋ else ⌊q⌋ + 1)
  else round q

/-- The specification's index formula for the general case (effective count
`n ≥ 2`): `round(i * (total_frames - 1) / (n - 1))`. -/
def specIndex (total_frames n i : ℕ) : ℕ :=
  (specRoundHalfEven ((i : ℚ) * ((total_frames : ℚ) - 1) / ((n : ℚ) - 1))).toNat

/-- The specification's sequence of sample indices, deduplicated preserving
first-occurrence order. -/
def specIndices (total_frames n : ℕ) : List ℕ :=
  dedupFirst ((List.range n).map (specIndex total_frames n))

/-! ### Natural filename sort (`_natural_key`)

Filenames are modelled as their lists of Unicode code points (`codes`);
Python compares strings lexicographically by code point. -/

/-- Code points of a string literal. -/
def codes (s : String) : List ℕ :=
  s.data.map Char.toNat

/-- ASCII digit test (`\d` of the regular expression, on ASCII names). -/
def isDigitCode (c : ℕ) : Bool :=
  48 ≤ c && c ≤ 57

/-- Maximal runs of consecutive digits, in order (`re.findall(r"\d+", s)`);
`cur` holds the reversed digits of the run being read. -/
def digitRunsAux (cur : List ℕ) : List ℕ → List (List ℕ)
  | [] => if cur = [] then [] else [cur.reverse]
  | c :: cs =>
    if isDigitCode c then digitRunsAux (c :: cur) cs
    else if cur = [] then digitRunsAux [] cs
    else cur.reverse :: digitRunsAux [] cs

def digitRuns (s : List ℕ) : List (List ℕ) :=
  digitRunsAux [] s

/-- Decimal value of a digit run (`int(...)`). -/
def runVal (run : List ℕ) : ℕ :=
  run.foldl (fun a d => 10 * a + (d - 48)) 0

/-- Index of the last occurrence of `c` (`str.rfind`), if any. -/
def rfindIdx (c : ℕ) : List ℕ → Option ℕ
  | [] => none
  | x :: xs =>
    match rfindIdx c xs with
    | some j => some (j + 1)
    | none => if x = c then some 0 else none

/-- `Path.stem` on a bare filename: the name with its last suffix stripped;
a suffix exists when the last dot is neither the first nor the last
character. -/
def pyStem (name : List ℕ) : List ℕ :=
  match rfindIdx 46 name with
  | some i => if 0 < i ∧ i + 1 < name.length then name.take i else name
  | none => name

/-- `Path.suffix` on a bare filename: the extension including the dot, or
empty. -/
def pySuffix (name : List ℕ) : List ℕ :=
  match rfindIdx 46 name with
  | some i => if 0 < i ∧ i + 1 < name.length then name.drop i else []
  | none => []

/-- `str.lower` restricted to ASCII letters (sufficient for the extension
test against the ASCII-only set of accepted extensions). -/
def lowerCodes (s : List ℕ) : List ℕ :=
  s.map fun c => if 65 ≤ c ∧ c ≤ 90 then c + 32 else c

/-- `_natural_key(p)`: primary key the integer value of the last digit run of
the stem (or `-1` when the stem has no digits), secondary key the stem. -/
def natural_key (name : List ℕ) : ℤ × List ℕ :=
  let s := pyStem name
  match (digitRuns s).getLast? with
  | some run => ((runVal run : ℤ), s)
  | none => (-1, s)

/-- Lexicographic order on code-point lists (Python string comparison). -/
def lexLe : List ℕ → List ℕ → Bool
  | [], _ => true
  | _ :: _, [] => false
  | a :: as, b :: bs => if a < b then true else if a = b then lexLe as bs else false

/-- Lexicographic order on Python key tuples `(int, str)`. -/
def keyLe (a b : ℤ × List ℕ) : Bool :=
  if a.1 < b.1 then true else if a.1 = b.1 then lexLe a.2 b.2 else false

/-- Order on filenames induced by `_natural_key`. -/
def natLE (p q : List ℕ) : Prop :=
  keyLe (natural_key p) (natural_key q) = true

instance : DecidableRel natLE := fun p q => by
  unfold natLE; infer_instance

/-- `sorted(names, key=_natural_key)` (stable sort by the natural key). -/
def sortNames (names : List (List ℕ)) : List (List ℕ) :=
  List.insertionSort natLE names

/-! ### `frames_to_video`: image listing and fps resolution -/

/-- A directory entry as yielded by `frames_dir.iterdir()`: a name and
whether the entry is a subdirectory. -/
structure Entry where
  name : List ℕ
  isDir : Bool
  deriving DecidableEq

/-- The filter `p.suffix.lower() in {".png", ".jpg", ".jpeg"}`. -/
def isImageName (name : List ℕ) : Bool :=
  let e := lowerCodes (pySuffix name)
  if e = codes ".png" ∨ e = codes ".jpg" ∨ e = codes ".jpeg" then true else false

/-- The `images` list of `frames_to_video`: all entries passing the suffix
filter (the source never tests whether an entry is a regular file), sorted by
the natural key. -/
def listImages (entries : List Entry) : List (List ℕ) :=
  sortNames ((entries.filter fun e => isImageName e.name).map Entry.name)

/-- What `_get_video_meta` would report for a reference video, assuming it
can be opened: whether the path exists on disk (`ref_video.exists()`), and
the reported frame rate (0 when the container does not report one). -/
structure RefInfo where
  existsOnDisk : Bool
  reportedFps : ℚ

/-- The fps-resolution logic of `frames_to_video` (lines 169–173). -/
def resolveFps (fps : Option ℚ) (ref_video : Option RefInfo) : ℚ :=
  let fps1 : Option ℚ :=
    match fps, ref_video with
    | none, some r =>
      if r.existsOnDisk then some (if 0 < r.reportedFps then r.reportedFps else 30) else none
    | f, _ => f
  match fps1 with
  | some f => f
  | none => 30

/-- The frame rate the `VideoWriter` is opened with: `frames_to_video` fails
with EmptyResult when the filtered image list is empty, and otherwise opens
the encoder with the resolved fps. -/
def encoderFps (entries : List Entry) (fps : Option ℚ) (ref_video : Option RefInfo) :
    Except Err ℚ :=
  if (listImages entries).isEmpty then .error (.emptyResult "No images found")
  else .ok (resolveFps fps ref_video)

/-! ### `extract_frames`: control flow with handle accounting -/

/-- The pieces of `cv2` behaviour `extract_frames` depends on: whether the
video opens, the metadata frame count, the number of frames the decoder
actually yields, and whether writing the image with a given ordinal
succeeds. -/
structure VideoEnv where
  openable : Bool
  reportedCount : ℤ
  actualFrames : ℕ
  writeOk : ℕ → Bool

/-- Counts of video-capture handles successfully opened and released. -/
structure HState where
  opened : ℕ
  released : ℕ
  deriving DecidableEq, Repr

/-- The sequential write loop of `extract_frames`: for each decodable frame
index in order, frames in the target set are written (their write ordinals
are returned); a failed write aborts with WriteFailure. -/
def writeFrames (w : ℕ → Bool) (targets : List ℕ) : List ℕ → ℕ → Except Err (List ℕ)
  | [], _ => .ok []
  | i :: rest, ord =>
    if i ∈ targets then
      if w ord then
        match writeFrames w targets rest (ord + 1) with
        | .ok xs => .ok (ord :: xs)
        | .error e => .error e
      else .error (.writeFailure "Failed to write image")
    else writeFrames w targets rest ord

/-- `extract_frames(video_path, out_dir, num_frames)`: result (the write
ordinals of the saved frames) paired with the handle accounting.

Handle accounting mirrors the source line by line: `_get_video_meta` opens
and releases one capture; the extraction capture is then opened; when the
reported count is 0 the counting pass releases it and opens a fresh one.
When `_compute_sample_indices` raises, the `ValueError` propagates with no
`release()` on the open extraction capture; the write-failure, empty-result
and normal paths all release it. An unopenable video acquires no handle. -/
def extract_frames (env : VideoEnv) (num_frames : ℤ) :
    Except Err (List ℕ) × HState :=
  if env.openable = false then
    (.error (.openFailure "Could not open video"), ⟨0, 0⟩)
  else
    let s : HState := if env.reportedCount = 0 then ⟨3, 2⟩ else ⟨2, 1⟩
    let count : ℤ := if env.reportedCount = 0 then (env.actualFrames : ℤ) else env.reportedCount
    match compute_sample_indices count num_frames with
    | .error e => (.error e, s)
    | .ok targets =>
      match writeFrames env.writeOk targets (List.range env.actualFrames) 0 with
      | .error e => (.error e, ⟨s.opened, s.released + 1⟩)
      | .ok saved =>
        if saved.isEmpty then
          (.error (.emptyResult "No frames were saved (check inputs)."), ⟨s.opened, s.released + 1⟩)
        else (.ok saved, ⟨s.opened, s.released + 1⟩)

example : natural_key (codes "frame_000123.png") = (123, codes "frame_000123") := by rfl
example : sortNames [codes "frame_000010.png", codes "frame_000002.png", codes "frame_000001.png"] =
    [codes "frame_000001.png", codes "frame_000002.png", codes "frame_000010.png"] := by rfl
example : extract_frames ⟨true, 10, 10, fun _ => true⟩ 4 = (.ok [0, 1, 2, 3], ⟨2, 2⟩) := by rfl
example : extract_frames ⟨true, 5, 5, fun _ => true⟩ 0 =
    (.error (.invalidInput "num_samples must be >= 1"), ⟨2, 1⟩) := by rfl

/-! ## Helper lemmas: `pyRound` -/

theorem div_le_pyRound (a b : ℕ) : a / b ≤ pyRound a b := by
  unfold pyRound; split_ifs <;> omega

theorem pyRound_le_div_succ (a b : ℕ) : pyRound a b ≤ a / b + 1 := by
  unfold pyRound; split_ifs <;> omega

theorem pyRound_mono {a a' b : ℕ} (h : a ≤ a') : pyRound a b ≤ pyRound a' b := by
  rcases Nat.lt_or_ge (a / b) (a' / b) with hq | hq
  · calc pyRound a b ≤ a / b + 1 := pyRound_le_div_succ a b
      _ ≤ a' / b := hq
      _ ≤ pyRound a' b := div_le_pyRound a' b
  · have hq' : a / b = a' / b := le_antisymm (Nat.div_le_div_right h) hq
    have hr : a % b ≤ a' % b := by
      have hle : b * (a / b) + a % b ≤ b * (a' / b) + a' % b := by
        rw [Nat.div_add_mod, Nat.div_add_mod]; exact h
      rw [hq'] at hle
      exact Nat.le_of_add_le_add_left hle
    unfold pyRound
    rw [hq']
    split_ifs <;> omega

theorem pyRound_mul {b : ℕ} (hb : 0 < b) (k : ℕ) : pyRound (k * b) b = k := by
  unfold pyRound
  rw [Nat.mul_div_cancel _ hb, Nat.mul_mod_left]
  split_ifs <;> omega

theorem pyRound_zero {b : ℕ} (hb : 0 < b) : pyRound 0 b = 0 := by
  have := pyRound_mul hb 0
  rwa [Nat.zero_mul] at this

/-! ## Helper lemmas: deduplication -/

theorem dedupSeen_sublist (seen l : List ℕ) : (dedupSeen seen l).Sublist l := by
  induction l generalizing seen with
  | nil => simp [dedupSeen]
  | cons x xs ih =>
    by_cases hx : x ∈ seen
    · simp only [dedupSeen, if_pos hx]
      exact (ih seen).cons x
    · simp only [dedupSeen, if_neg hx]
      exact (ih (x :: seen)).cons₂ x

theorem mem_dedupSeen {x : ℕ} {seen l : List ℕ} :
    x ∈ dedupSeen seen l ↔ x ∈ l ∧ x ∉ seen := by
  induction l generalizing seen with
  | nil => simp [dedupSeen]
  | cons y ys ih =>
    by_cases hy : y ∈ seen
    · simp only [dedupSeen, if_pos hy, ih, List.mem_cons]
      constructor
      · rintro ⟨h1, h2⟩; exact ⟨Or.inr h1, h2⟩
      · rintro ⟨h1 | h1, h2⟩
        · exact absurd (h1 ▸ hy) h2
        · exact ⟨h1, h2⟩
    · simp only [dedupSeen, if_neg hy, List.mem_cons, ih]
      constructor
      · rintro (rfl | ⟨h1, h2⟩)
        · exact ⟨Or.inl rfl, hy⟩
        · exact ⟨Or.inr h1, fun hx => h2 (Or.inr hx)⟩
      · rintro ⟨rfl | h1, h2⟩
        · exact Or.inl rfl
        · by_cases hxy : x = y
          · exact Or.inl hxy
          · exact Or.inr ⟨h1, fun hx => hx.elim hxy h2⟩

theorem nodup_dedupSeen (seen l : List ℕ) : (dedupSeen seen l).Nodup := by
  induction l generalizing seen with
  | nil => simp [dedupSeen]
  | cons y ys ih =>
    by_cases hy : y ∈ seen
    · simpa only [dedupSeen, if_pos hy] using ih seen
    · simp only [dedupSeen, if_neg hy, List.nodup_cons]
      refine ⟨fun hmem => ?_, ih (y :: seen)⟩
      exact (mem_dedupSeen.mp hmem).2 (List.mem_cons_self y seen)

theorem dedupFirst_sublist (l : List ℕ) : (dedupFirst l).Sublist l :=
  dedupSeen_sublist [] l

theorem nodup_dedupFirst (l : List ℕ) : (dedupFirst l).Nodup :=
  nodup_dedupSeen [] l

theorem mem_dedupFirst {x : ℕ} {l : List ℕ} : x ∈ dedupFirst l ↔ x ∈ l := by
  simp [dedupFirst, mem_dedupSeen]

theorem pairwise_lt_dedupFirst {l : List ℕ} (h : l.Pairwise (· ≤ ·)) :
    (dedupFirst l).Pairwise (· < ·) := by
  have hs : (dedupFirst l).Pairwise (· ≤ ·) :=
    List.Pairwise.sublist (dedupFirst_sublist l) h
  have hn : (dedupFirst l).Pairwise (· ≠ ·) := nodup_dedupFirst l
  exact (hs.and hn).imp fun hab => lt_of_le_of_ne hab.1 hab.2

theorem head?_dedupFirst (x : ℕ) (xs : List ℕ) :
    (dedupFirst (x :: xs)).head? = some x := by
  simp [dedupFirst, dedupSeen]

theorem getLast?_eq_of_sorted_mem {l : List ℕ} (hs : l.Pairwise (· ≤ ·)) {y : ℕ}
    (hy : y ∈ l) (hmax : ∀ x ∈ l, x ≤ y) : l.getLast? = some y := by
  induction l with
  | nil => cases hy
  | cons a t ih =>
    cases t with
    | nil =>
      simp only [List.mem_singleton] at hy
      simp [hy]
    | cons b t' =>
      rw [List.getLast?_cons_cons]
      obtain ⟨ha, htail⟩ := List.pairwise_cons.mp hs
      have hy' : y ∈ b :: t' := by
        rcases List.mem_cons.mp hy with rfl | h
        · have hba : b ≤ y := hmax b (by simp)
          have hab : y ≤ b := ha b (by simp)
          have : b = y := le_antisymm hba hab
          exact this ▸ List.mem_cons_self b t'
        · exact h
      exact ih htail hy' fun x hx => hmax x (List.mem_cons_of_mem a hx)

/-! ## Helper lemmas: `compute_sample_indices` -/

theorem compute_sample_indices_pos {tf ns : ℤ} (h1 : 0 < tf) (h2 : 0 < ns) :
    compute_sample_indices tf ns =
      if min ns tf = 1 then Except.ok [tf.toNat / 2]
      else Except.ok (dedupFirst ((List.range (min ns tf).toNat).map
        fun i => pyRound (i * (tf.toNat - 1)) ((min ns tf).toNat - 1))) := by
  simp only [compute_sample_indices]
  rw [if_neg (by omega), if_neg (by omega)]

theorem rawList_pairwise_le (T n : ℕ) :
    ((List.range n).map fun i => pyRound (i * (T - 1)) (n - 1)).Pairwise (· ≤ ·) := by
  rw [List.pairwise_map]
  exact (List.pairwise_lt_range n).imp fun h => pyRound_mono (Nat.mul_le_mul_right _ h.le)

theorem rawList_le_bound {T n : ℕ} (_hT : 1 ≤ T) (hn : 2 ≤ n) {x : ℕ}
    (hx : x ∈ (List.range n).map fun i => pyRound (i * (T - 1)) (n - 1)) :
    x ≤ T - 1 := by
  obtain ⟨i, hi, rfl⟩ := List.mem_map.mp hx
  have hi' : i < n := List.mem_range.mp hi
  calc pyRound (i * (T - 1)) (n - 1)
      ≤ pyRound ((n - 1) * (T - 1)) (n - 1) :=
        pyRound_mono (Nat.mul_le_mul_right _ (by omega))
    _ = pyRound ((T - 1) * (n - 1)) (n - 1) := by rw [Nat.mul_comm]
    _ = T - 1 := pyRound_mul (by omega) (T - 1)

/-! ## Claim theorems: sample planner -/

/-- C1: for every `total_frames ≥ 1` and `num_samples ≥ 1`,
`compute_sample_indices` returns a strictly increasing sequence of distinct
indices, each in `[0, total_frames - 1]`, of length at most
`min num_samples total_frames`. -/
theorem sample_indices_sorted_bounded (tf ns : ℤ) (h1 : 1 ≤ tf) (h2 : 1 ≤ ns) :
    ∃ l : List ℕ, compute_sample_indices tf ns = .ok l ∧
      l.Pairwise (· < ·) ∧ l.Nodup ∧
      (∀ x ∈ l, 0 ≤ (x : ℤ) ∧ (x : ℤ) ≤ tf - 1) ∧
      (l.length : ℤ) ≤ min ns tf := by
  rw [compute_sample_indices_pos (by omega) (by omega)]
  by_cases hm : min ns tf = 1
  · rw [if_pos hm]
    refine ⟨[tf.toNat / 2], rfl, by simp, by simp, ?_, ?_⟩
    · intro x hx
      simp only [List.mem_singleton] at hx
      subst hx
      constructor
      · exact Int.natCast_nonneg _
      · omega
    · simp [hm]
  · rw [if_neg hm]
    set T := tf.toNat
    set n := (min ns tf).toNat with hn
    have hT1 : 1 ≤ T := by omega
    have hn2 : 2 ≤ n := by omega
    refine ⟨_, rfl, ?_, ?_, ?_, ?_⟩
    · exact pairwise_lt_dedupFirst (rawList_pairwise_le T n)
    · exact nodup_dedupFirst _
    · intro x hx
      have := rawList_le_bound hT1 hn2 (mem_dedupFirst.mp hx)
      constructor
      · exact Int.natCast_nonneg _
      · omega
    · have hlen : (dedupFirst ((List.range n).map
          fun i => pyRound (i * (T - 1)) (n - 1))).length ≤ n := by
        calc (dedupFirst _).length
            ≤ ((List.range n).map fun i => pyRound (i * (T - 1)) (n - 1)).length :=
              (dedupFirst_sublist _).length_le
          _ = n := by simp
      omega

theorem sample_indices_sorted_bounded_w :
    ∃ l : List ℕ, compute_sample_indices 10 4 = .ok l ∧
      l.Pairwise (· < ·) ∧ l.Nodup ∧
      (∀ x ∈ l, 0 ≤ (x : ℤ) ∧ (x : ℤ) ≤ 10 - 1) ∧
      (l.length : ℤ) ≤ min 4 10 :=
  sample_indices_sorted_bounded 10 4 (by decide) (by decide)

/-- C4: for every `total_frames ≥ 1`, `compute_sample_indices` with
`num_samples = 1` returns exactly `[total_frames / 2]` (integer floor
division). -/
theorem sample_indices_single (tf : ℤ) (h1 : 1 ≤ tf) :
    compute_sample_indices tf 1 = .ok [tf.toNat / 2] := by
  rw [compute_sample_indices_pos (by omega) (by omega), if_pos (by omega)]

theorem sample_indices_single_w : compute_sample_indices 7 1 = .ok [3] := by
  rw [sample_indices_single 7 (by decide)]
  rfl

/-- C5: `compute_sample_indices` fails with InvalidInput exactly when
`total_frames ≤ 0` or `num_samples ≤ 0`; for all other inputs it returns
normally. -/
theorem sample_indices_invalid_iff (tf ns : ℤ) :
    ((tf ≤ 0 ∨ ns ≤ 0) →
      ∃ msg, compute_sample_indices tf ns = .error (.invalidInput msg)) ∧
    (0 < tf → 0 < ns → ∃ l, compute_sample_indices tf ns = .ok l) := by
  constructor
  · intro h
    by_cases h1 : tf ≤ 0
    · refine ⟨"Video appears to have zero frames (or metadata missing).", ?_⟩
      unfold compute_sample_indices
      rw [if_pos h1]
    · refine ⟨"num_samples must be >= 1", ?_⟩
      unfold compute_sample_indices
      rw [if_neg h1, if_pos (by omega)]
  · intro h1 h2
    rw [compute_sample_indices_pos h1 h2]
    by_cases hm : min ns tf = 1
    · rw [if_pos hm]; exact ⟨_, rfl⟩
    · rw [if_neg hm]; exact ⟨_, rfl⟩

theorem sample_indices_invalid_iff_w :
    (∃ msg, compute_sample_indices 0 5 = .error (.invalidInput msg)) ∧
    (∃ l, compute_sample_indices 5 0 = .error (.invalidInput l)) ∧
    (∃ l, compute_sample_indices 5 3 = .ok l) :=
  ⟨(sample_indices_invalid_iff 0 5).1 (Or.inl (by decide)),
   (sample_indices_invalid_iff 5 0).1 (Or.inr (by decide)),
   (sample_indices_invalid_iff 5 3).2 (by decide) (by decide)⟩

/-- C3: when `2 ≤ num_samples ≤ total_frames`, the first returned index is
`0` and the last is `total_frames - 1`. -/
theorem sample_indices_endpoints (tf ns : ℤ) (h2 : 2 ≤ ns) (hle : ns ≤ tf) :
    ∃ l, compute_sample_indices tf ns = .ok l ∧
      l.head? = some 0 ∧ l.getLast? = some (tf.toNat - 1) := by
  rw [compute_sample_indices_pos (by omega) (by omega), if_neg (by omega)]
  set T := tf.toNat with hT
  set n := (min ns tf).toNat with hn
  have hT1 : 1 ≤ T := by omega
  have hn2 : 2 ≤ n := by omega
  refine ⟨_, rfl, ?_, ?_⟩
  · obtain ⟨m, hm2⟩ : ∃ m, n = m + 2 := ⟨n - 2, by omega⟩
    rw [hm2, List.range_succ_eq_map, List.map_cons, head?_dedupFirst]
    have h0 : pyRound (0 * (T - 1)) (m + 2 - 1) = 0 := by
      rw [Nat.zero_mul]; exact pyRound_zero (by omega)
    rw [h0]
  · apply getLast?_eq_of_sorted_mem
    · exact List.Pairwise.sublist (dedupFirst_sublist _) (rawList_pairwise_le T n)
    · rw [mem_dedupFirst]
      refine List.mem_map.mpr ⟨n - 1, List.mem_range.mpr (by omega), ?_⟩
      rw [Nat.mul_comm]
      exact pyRound_mul (by omega) (T - 1)
    · intro x hx
      exact rawList_le_bound hT1 hn2 (mem_dedupFirst.mp hx)

theorem sample_indices_endpoints_w :
    ∃ l, compute_sample_indices 10 4 = .ok l ∧
      l.head? = some 0 ∧ l.getLast? = some 9 :=
  sample_indices_endpoints 10 4 (by decide) (by decide)

/-! ## Claim theorems: rounding refinement (C2) -/

theorem floorQ_div (a b : ℕ) : ⌊((a : ℚ) / (b : ℚ))⌋ = (a / b : ℕ) := by
  have h0 : (0:ℚ) ≤ (a : ℚ) / (b : ℚ) :=
    div_nonneg (Nat.cast_nonneg a) (Nat.cast_nonneg b)
  rw [← Int.natCast_floor_eq_floor h0, Nat.floor_div_eq_div]

theorem fract_lt_half_iff {a b : ℕ} (hb : 0 < b) :
    Int.fract ((a : ℚ) / b) < 1 / 2 ↔ 2 * (a % b) < b := by
  rw [Int.fract_div_natCast_eq_div_natCast_mod,
    div_lt_div_iff₀ (by exact_mod_cast hb) (by norm_num : (0:ℚ) < 2)]
  rw [one_mul]
  constructor
  · intro h
    have h' : (a % b) * 2 < b := by exact_mod_cast h
    omega
  · intro h
    have h' : (a % b) * 2 < b := by omega
    exact_mod_cast h'

theorem half_lt_fract_iff {a b : ℕ} (hb : 0 < b) :
    1 / 2 < Int.fract ((a : ℚ) / b) ↔ b < 2 * (a % b) := by
  rw [Int.fract_div_natCast_eq_div_natCast_mod,
    div_lt_div_iff₀ (by norm_num : (0:ℚ) < 2) (by exact_mod_cast hb)]
  rw [one_mul]
  constructor
  · intro h
    have h' : b < (a % b) * 2 := by exact_mod_cast h
    omega
  · intro h
    have h' : b < (a % b) * 2 := by omega
    exact_mod_cast h'

theorem fract_eq_half_iff {a b : ℕ} (hb : 0 < b) :
    Int.fract ((a : ℚ) / b) = 1 / 2 ↔ 2 * (a % b) = b := by
  obtain ⟨r, hr⟩ : ∃ r, a % b = r := ⟨_, rfl⟩
  rw [Int.fract_div_natCast_eq_div_natCast_mod, hr,
    div_eq_div_iff (Nat.cast_ne_zero.mpr hb.ne') (two_ne_zero), one_mul]
  constructor
  · intro h
    have h' : r * 2 = b := by exact_mod_cast h
    omega
  · intro h
    exact_mod_cast (by omega : r * 2 = b)

theorem roundQ (q : ℚ) : round q = ⌊q⌋ + ⌊Int.fract q + 1 / 2⌋ := by
  rw [round_eq]
  conv_lhs => rw [← Int.floor_add_fract q]
  rw [add_assoc, Int.floor_int_add]

theorem round_of_fract_lt {q : ℚ} (h : Int.fract q < 1 / 2) : round q = ⌊q⌋ := by
  rw [roundQ]
  have h0 : ⌊Int.fract q + 1 / 2⌋ = 0 := by
    rw [Int.floor_eq_zero_iff]
    refine Set.mem_Ico.mpr ⟨by linarith [Int.fract_nonneg q], by linarith⟩
  rw [h0, add_zero]

theorem round_of_half_lt {q : ℚ} (h : 1 / 2 < Int.fract q) : round q = ⌊q⌋ + 1 := by
  rw [roundQ]
  have h1 : ⌊Int.fract q + 1 / 2⌋ = 1 := by
    refine Int.floor_eq_iff.mpr ⟨?_, ?_⟩
    · push_cast
      linarith
    · push_cast
      linarith [Int.fract_lt_one q]
  rw [h1]

theorem pyRound_eq_spec {a b : ℕ} (hb : 0 < b) :
    (pyRound a b : ℤ) = specRoundHalfEven ((a : ℚ) / b) := by
  have hcastp : (((a / b : ℕ) : ℤ) % 2 = 0) ↔ ((a / b) % 2 = 0) := by
    constructor <;> intro h <;> omega
  rcases Nat.lt_trichotomy (2 * (a % b)) b with ht | ht | ht
  · have hf : Int.fract ((a : ℚ) / b) < 1 / 2 := (fract_lt_half_iff hb).mpr ht
    unfold specRoundHalfEven
    rw [if_neg (ne_of_lt hf), round_of_fract_lt hf, floorQ_div a b]
    unfold pyRound
    rw [if_pos ht]
  · have hf : Int.fract ((a : ℚ) / b) = 1 / 2 := (fract_eq_half_iff hb).mpr ht
    unfold specRoundHalfEven
    rw [if_pos hf, floorQ_div a b]
    unfold pyRound
    rw [if_neg (by omega), if_neg (by omega)]
    by_cases hp : (a / b) % 2 = 0
    · rw [if_pos hp, if_pos (hcastp.mpr hp)]
    · rw [if_neg hp, if_neg (fun h => hp (hcastp.mp h))]
      push_cast
      ring
  · have hf : 1 / 2 < Int.fract ((a : ℚ) / b) := (half_lt_fract_iff hb).mpr ht
    unfold specRoundHalfEven
    rw [if_neg (ne_of_gt hf), round_of_half_lt hf, floorQ_div a b]
    unfold pyRound
    rw [if_neg (by omega), if_pos ht]
    push_cast
    ring

theorem specIndex_eq_pyRound {T n : ℕ} (hT : 1 ≤ T) (hn : 2 ≤ n) (i : ℕ) :
    specIndex T n i = pyRound (i * (T - 1)) (n - 1) := by
  unfold specIndex
  have hcast : (i : ℚ) * ((T : ℚ) - 1) / ((n : ℚ) - 1)
      = ((i * (T - 1) : ℕ) : ℚ) / ((n - 1 : ℕ) : ℚ) := by
    push_cast [Nat.cast_sub hT, Nat.cast_sub (show 1 ≤ n by omega)]
    ring
  rw [hcast, ← pyRound_eq_spec (show 0 < n - 1 by omega), Int.toNat_natCast]

/-- C2: in the general case (effective sample count `n = min num_samples
total_frames ≥ 2`), `compute_sample_indices` equals the specification's
sequence `round(i * (total_frames - 1) / (n - 1))` for `i = 0, ..., n - 1`
with round half to even on exact rationals, deduplicated preserving
first-occurrence order; in particular, `total_frames = 10`, `num_samples = 4`
yields `[0, 3, 6, 9]`. -/
theorem sample_indices_match_spec :
    (∀ tf ns : ℤ, 1 ≤ tf → 1 ≤ ns → 2 ≤ min ns tf →
      compute_sample_indices tf ns = .ok (specIndices tf.toNat (min ns tf).toNat)) ∧
    compute_sample_indices 10 4 = .ok [0, 3, 6, 9] := by
  constructor
  · intro tf ns h1 h2 hm
    rw [compute_sample_indices_pos (by omega) (by omega), if_neg (by omega)]
    unfold specIndices
    congr 1
    congr 1
    apply List.map_congr_left
    intro i hi
    exact (specIndex_eq_pyRound (by omega) (by omega) i).symm
  · rfl

theorem sample_indices_match_spec_w :
    compute_sample_indices 10 4 = .ok (specIndices (10 : ℤ).toNat (min (4 : ℤ) 10).toNat) :=
  sample_indices_match_spec.1 10 4 (by decide) (by decide) (by decide)

/-! ## Helper lemmas: the natural-key order is total and transitive -/

theorem lexLe_cons_iff {a b : ℕ} {as bs : List ℕ} :
    lexLe (a :: as) (b :: bs) = true ↔ a < b ∨ (a = b ∧ lexLe as bs = true) := by
  simp only [lexLe]
  split_ifs with h1 h2
  · simp [h1]
  · simp [h1, h2]
  · simp [h1, h2]

theorem lexLe_trans : ∀ xs ys zs : List ℕ,
    lexLe xs ys = true → lexLe ys zs = true → lexLe xs zs = true
  | [], _, _, _, _ => rfl
  | _ :: _, [], _, h1, _ => by simp [lexLe] at h1
  | _ :: _, _ :: _, [], _, h2 => by simp [lexLe] at h2
  | a :: as, b :: bs, c :: cs, h1, h2 => by
    rw [lexLe_cons_iff] at h1 h2 ⊢
    rcases h1 with h1 | ⟨rfl, h1⟩
    · rcases h2 with h2 | ⟨rfl, h2⟩
      · exact Or.inl (h1.trans h2)
      · exact Or.inl h1
    · rcases h2 with h2 | ⟨rfl, h2⟩
      · exact Or.inl h2
      · exact Or.inr ⟨rfl, lexLe_trans as bs cs h1 h2⟩

theorem lexLe_total : ∀ xs ys : List ℕ, lexLe xs ys = true ∨ lexLe ys xs = true
  | [], _ => Or.inl rfl
  | _ :: _, [] => Or.inr rfl
  | a :: as, b :: bs => by
    rcases Nat.lt_trichotomy a b with h | h | h
    · exact Or.inl (by rw [lexLe_cons_iff]; exact Or.inl h)
    · subst h
      rcases lexLe_total as bs with h | h
      · exact Or.inl (by rw [lexLe_cons_iff]; exact Or.inr ⟨rfl, h⟩)
      · exact Or.inr (by rw [lexLe_cons_iff]; exact Or.inr ⟨rfl, h⟩)
    · exact Or.inr (by rw [lexLe_cons_iff]; exact Or.inl h)

theorem keyLe_iff {x y : ℤ × List ℕ} :
    keyLe x y = true ↔ x.1 < y.1 ∨ (x.1 = y.1 ∧ lexLe x.2 y.2 = true) := by
  unfold keyLe
  split_ifs with h1 h2
  · simp [h1]
  · simp [h1, h2]
  · simp [h1, h2]

theorem keyLe_trans (x y z : ℤ × List ℕ)
    (h1 : keyLe x y = true) (h2 : keyLe y z = true) : keyLe x z = true := by
  rw [keyLe_iff] at h1 h2 ⊢
  rcases h1 with h1 | ⟨he1, h1⟩
  · rcases h2 with h2 | ⟨he2, h2⟩
    · exact Or.inl (h1.trans h2)
    · exact Or.inl (he2 ▸ h1)
  · rcases h2 with h2 | ⟨he2, h2⟩
    · exact Or.inl (he1 ▸ h2)
    · exact Or.inr ⟨he1.trans he2, lexLe_trans _ _ _ h1 h2⟩

theorem keyLe_total (x y : ℤ × List ℕ) : keyLe x y = true ∨ keyLe y x = true := by
  rcases lt_trichotomy x.1 y.1 with h | h | h
  · exact Or.inl (keyLe_iff.mpr (Or.inl h))
  · rcases lexLe_total x.2 y.2 with hl | hl
    · exact Or.inl (keyLe_iff.mpr (Or.inr ⟨h, hl⟩))
    · exact Or.inr (keyLe_iff.mpr (Or.inr ⟨h.symm, hl⟩))
  · exact Or.inr (keyLe_iff.mpr (Or.inl h))

instance : IsTotal (List ℕ) natLE :=
  ⟨fun p q => keyLe_total (natural_key p) (natural_key q)⟩

instance : IsTrans (List ℕ) natLE :=
  ⟨fun _ _ _ h1 h2 => keyLe_trans _ _ _ h1 h2⟩

/-! ## Claim theorems: frame assembler -/

/-- C6: the assembler processes image names in the order given by sorting on
the natural key (last digit run of the extension-stripped base name as an
integer, `-1` when there is none, tie-broken by the base-name string): the
sorted list is a permutation of the input, sorted with respect to the
natural-key order; in particular `frame_000010.png`, `frame_000002.png`,
`frame_000001.png` are processed in the order 000001, 000002, 000010. -/
theorem assembler_natural_sort :
    (∀ names : List (List ℕ),
      (sortNames names).Perm names ∧ (sortNames names).Pairwise natLE) ∧
    sortNames [codes "frame_000010.png", codes "frame_000002.png",
        codes "frame_000001.png"] =
      [codes "frame_000001.png", codes "frame_000002.png",
        codes "frame_000010.png"] := by
  constructor
  · intro names
    exact ⟨List.perm_insertionSort natLE names, List.sorted_insertionSort natLE names⟩
  · rfl

/-- C8 (counterexample): the source filters `iterdir()` entries by suffix
only and never checks that an entry is a regular file, so a subdirectory
named `sub.png` appears in the image list. -/
theorem subdir_with_image_ext_listed :
    (Entry.mk (codes "sub.png") true).isDir = true ∧
    (Entry.mk (codes "sub.png") true).name ∈
      listImages [Entry.mk (codes "sub.png") true] := by
  constructor
  · rfl
  · have h : listImages [Entry.mk (codes "sub.png") true] = [codes "sub.png"] := by rfl
    rw [h]
    exact List.mem_singleton.mpr rfl

/-- C8 (amended): the image list contains exactly the names of entries whose
extension is png, jpg or jpeg case-insensitively, whether the entry is a
file or a subdirectory; entries with any other extension are excluded. -/
theorem listImages_mem_iff (entries : List Entry) (nm : List ℕ) :
    nm ∈ listImages entries ↔
      ∃ e ∈ entries, e.name = nm ∧ isImageName nm = true := by
  unfold listImages sortNames
  rw [(List.perm_insertionSort natLE _).mem_iff]
  simp only [List.mem_map, List.mem_filter]
  constructor
  · rintro ⟨e, ⟨he, hf⟩, rfl⟩
    exact ⟨e, he, rfl, hf⟩
  · rintro ⟨e, he, rfl, hf⟩
    exact ⟨e, ⟨he, hf⟩, rfl⟩

/-- C7: fps resolution precedence of `frames_to_video`: an explicit fps wins
unconditionally; otherwise a supplied, existing reference video with
reported fps > 0 supplies the rate; in every other case (no reference,
missing reference, or reported fps ≤ 0) the encoder is opened at exactly
30. -/
theorem frames_to_video_fps_precedence (entries : List Entry)
    (h : (listImages entries).isEmpty = false) :
    (∀ (f : ℚ) (ref : Option RefInfo), encoderFps entries (some f) ref = .ok f) ∧
    (∀ r : RefInfo, r.existsOnDisk = true → 0 < r.reportedFps →
      encoderFps entries none (some r) = .ok r.reportedFps) ∧
    encoderFps entries none none = .ok 30 ∧
    (∀ r : RefInfo, r.existsOnDisk = false →
      encoderFps entries none (some r) = .ok 30) ∧
    (∀ r : RefInfo, r.existsOnDisk = true → r.reportedFps ≤ 0 →
      encoderFps entries none (some r) = .ok 30) := by
  have hne : ¬(listImages entries).isEmpty = true := by simp [h]
  refine ⟨?_, ?_, ?_, ?_, ?_⟩
  · intro f ref
    unfold encoderFps
    rw [if_neg hne]
    cases ref <;> rfl
  · intro r he hpos
    unfold encoderFps resolveFps
    rw [if_neg hne]
    simp [he, hpos]
  · unfold encoderFps
    rw [if_neg hne]
    rfl
  · intro r he
    unfold encoderFps resolveFps
    rw [if_neg hne]
    simp [he]
  · intro r he hnp
    have hlt : ¬0 < r.reportedFps := not_lt.mpr hnp
    unfold encoderFps resolveFps
    rw [if_neg hne]
    simp [he, hlt]

theorem frames_to_video_fps_precedence_w :
    encoderFps [Entry.mk (codes "a.png") false] (some 24) (some ⟨true, 30⟩) = .ok 24 ∧
    encoderFps [Entry.mk (codes "a.png") false] none (some ⟨true, 30⟩) = .ok 30 ∧
    encoderFps [Entry.mk (codes "a.png") false] none none = .ok 30 := by
  have h := frames_to_video_fps_precedence [Entry.mk (codes "a.png") false] (by rfl)
  exact ⟨h.1 24 (some ⟨true, 30⟩), h.2.1 ⟨true, 30⟩ rfl (by norm_num), h.2.2.1⟩

/-- C10: an explicit fps is used exactly as given with no range validation:
fps = 0 or negative is neither rejected nor replaced by the default or the
reference fallback — the encoder is opened with that value unchanged. -/
theorem explicit_fps_not_validated (entries : List Entry)
    (h : (listImages entries).isEmpty = false) (f : ℚ) (_hf : f ≤ 0)
    (ref : Option RefInfo) :
    encoderFps entries (some f) ref = .ok f := by
  unfold encoderFps
  rw [if_neg (by simp [h])]
  cases ref <;> rfl

theorem explicit_fps_not_validated_w :
    encoderFps [Entry.mk (codes "a.png") false] (some 0) none = .ok 0 :=
  explicit_fps_not_validated [Entry.mk (codes "a.png") false] (by rfl) 0
    (by norm_num) none

/-! ## Claim theorems: frame extractor resource handling -/

/-- C9 (code evaluated at the failing input): on a video that opens and has
5 reported and decodable frames, calling `extract_frames` with
`num_frames = 0` makes the sample planner raise InvalidInput after the
extraction capture was opened; the error propagates while 2 handles were
opened and only 1 released, so an opened handle is never released on this
exit path. -/
theorem extract_frames_leaks_on_invalid_input :
    (extract_frames ⟨true, 5, 5, fun _ => true⟩ 0).1 =
      .error (.invalidInput "num_samples must be >= 1") ∧
    (extract_frames ⟨true, 5, 5, fun _ => true⟩ 0).2.opened = 2 ∧
    (extract_frames ⟨true, 5, 5, fun _ => true⟩ 0).2.released = 1 :=
  ⟨rfl, rfl, rfl⟩
